import Mathlib

/-!
Verification of the log-analyzer core (`src/log_analyzer.py`).

The development is a shallow embedding of the Python functions:
Python floats are modelled as exact rationals (`Rat`), Python exceptions
as an explicit `Except` error value, the Python dict keyed by url as an
association list in insertion order, and the lazy row generator as the
list of rows it yields (file I/O is abstracted away: `calculate` receives
the row sequence directly).
-/

namespace LogAnalyzer

/-- Errors raised by the aggregation code: `zeroDivision` models Python's
`ZeroDivisionError` raised by `100 * float(part) / total` when `total == 0`,
`thresholdExceeded` models the `Exception` raised when the error percentage
exceeds the allowed limit (carrying the limit and the actual percentage). -/
inductive CalcError where
  | zeroDivision
  | thresholdExceeded (limit actual : Rat)
deriving Repr, DecidableEq

/-- Embeds `percentage(part, total)`, i.e. `100 * float(part) / total`.
The Python division raises `ZeroDivisionError` when `total == 0`. -/
def percentage (part total : Rat) : Except CalcError Rat :=
  if total = 0 then Except.error CalcError.zeroDivision
  else Except.ok (100 * part / total)

/-- Embeds `median(arr)` from the source: `arr = map(float, arr)` (a fresh
list; on exact rationals the float conversion is the identity), the
single-element shortcut, then an in-place ascending sort and the middle
element (odd size) or the mean of the two middle elements (even size).
Python's integer divisions `size / 2` and `(size - 1) / 2` are `Nat`
division. Out-of-range indexing cannot occur for the sizes reached. -/
def median (arr : List Rat) : Rat :=
  let arr := arr.map (fun x => x)
  let size := arr.length
  if size = 1 then arr.getD 0 0
  else
    let sorted := List.insertionSort (· ≤ ·) arr
    if size % 2 = 0 then (sorted.getD (size / 2 - 1) 0 + sorted.getD (size / 2) 0) / 2
    else sorted.getD ((size - 1) / 2) 0

/-- Embeds Python's `max(durations)` on a non-empty list (the empty case is
unreachable in `calculate`; it is given the default `0` here). -/
def listMax : List Rat → Rat
  | [] => 0
  | x :: xs => xs.foldl max x

/-- One parsed row, `LogFileRow(url, duration)`: both fields `none` signals
a parse failure for that line. -/
structure LogFileRow where
  url : Option String
  duration : Option Rat
deriving Repr, DecidableEq

/-- Splitter accumulating the current word in reverse; embeds the
whitespace-run splitting of Python's `str.split()` with no argument
(empty tokens are dropped, leading/trailing whitespace ignored, so the
preceding `.strip()` in the source is absorbed). -/
def splitWsAux : List Char → List Char → List String
  | [], acc => if acc = [] then [] else [String.mk acc.reverse]
  | c :: cs, acc =>
    if c.isWhitespace then
      if acc = [] then splitWsAux cs [] else String.mk acc.reverse :: splitWsAux cs []
    else splitWsAux cs (c :: acc)

/-- Embeds `row.strip().split()`. -/
def splitWs (s : String) : List String := splitWsAux s.data []

/-- Reads a maximal run of decimal digits: returns their value, how many
digits were read, and the rest of the input. -/
def readDigitsAux : List Char → Nat → Nat → Nat × Nat × List Char
  | [], v, n => (v, n, [])
  | c :: cs, v, n =>
    if c.isDigit then readDigitsAux cs (v * 10 + (c.toNat - 48)) (n + 1)
    else (v, n, c :: cs)

/-- Unsigned part of a decimal float literal: `"12"`, `"12."`, `"12.5"`,
`".5"` (at least one digit overall, nothing left over). -/
def parseUnsignedRat (cs : List Char) : Option Rat :=
  match readDigitsAux cs 0 0 with
  | (ip, ipn, rest) =>
    match rest with
    | [] => if ipn = 0 then none else some (ip : Rat)
    | '.' :: rest2 =>
      match readDigitsAux rest2 0 0 with
      | (fp, fpn, rest3) =>
        if rest3 = [] ∧ ipn + fpn ≠ 0 then
          some ((ip : Rat) + (fp : Rat) / (10 : Rat) ^ fpn)
        else none
    | _ => none

/-- Embeds `float(token)` on the plain decimal literals that occur in the
duration field: an optional sign followed by digits with an optional
fractional part. (Exponents, `inf`/`nan` and surrounding whitespace are
outside the inputs this development evaluates.) -/
def pyFloat (s : String) : Option Rat :=
  match s.data with
  | [] => none
  | c :: cs =>
    if c = '-' then (parseUnsignedRat cs).map (fun q => -q)
    else if c = '+' then parseUnsignedRat cs
    else parseUnsignedRat (c :: cs)

/-- Embeds the body of the loop in `logfile_generator` for one line:
`parts = row.strip().split()`, `url = str(parts[6])`,
`duration = float(parts[-1])`; on `IndexError` or `ValueError` both
fields become `None`. -/
def line_to_row (line : String) : LogFileRow :=
  let parts := splitWs line
  match parts.get? 6 with
  | none => LogFileRow.mk none none
  | some u =>
    match parts.getLast? with
    | none => LogFileRow.mk none none
    | some last =>
      match pyFloat last with
      | none => LogFileRow.mk none none
      | some q => LogFileRow.mk (some u) (some q)

/-- The per-url accumulation record `dict(count=0, durations=[], url=url)`
(after its first increment/append). -/
structure UrlAcc where
  url : String
  count : Nat
  durations : List Rat
deriving Repr, DecidableEq

/-- The mutable state of the accumulation loop in `calculate`. The Python
dict `rows_by_url` is modelled as an association list in the order urls
are first inserted. Python 2 itself iterates a dict (`iteritems`,
`.values()`) in unspecified hash-table order, not insertion order, so
conclusions that depend on the iteration order are stated over an
arbitrary permutation of this list (see `finalizeSort`); the other
claims' conclusions are order-invariant. -/
structure AccState where
  rows_count : Nat
  errors_count : Nat
  total_duration : Rat
  rows_by_url : List UrlAcc
deriving Repr, DecidableEq

/-- `rows_by_url[url]['count'] += 1; rows_by_url[url]['durations'].append(d)`,
creating the entry (at the end, i.e. in insertion order) if absent. -/
def addRow (m : List UrlAcc) (url : String) (d : Rat) : List UrlAcc :=
  match m with
  | [] => [UrlAcc.mk url 1 [d]]
  | a :: rest =>
    if a.url = url then UrlAcc.mk a.url (a.count + 1) (a.durations ++ [d]) :: rest
    else a :: addRow rest url d

/-- One iteration of the `for url, duration in gen_rows` loop in
`calculate`: count the row, then either count an error (a field is `None`)
or add the duration to the grand total and to the url's record. -/
def stepRow (s : AccState) (r : LogFileRow) : AccState :=
  let s := { s with rows_count := s.rows_count + 1 }
  match r.url, r.duration with
  | some u, some d =>
    { s with total_duration := s.total_duration + d,
             rows_by_url := addRow s.rows_by_url u d }
  | _, _ => { s with errors_count := s.errors_count + 1 }

/-- The whole accumulation loop of `calculate` over the row sequence. -/
def accumulate (rows : List LogFileRow) : AccState :=
  rows.foldl stepRow (AccState.mk 0 0 0 [])

/-- A finalized per-url record, with the keys written by the finalization
loop of `calculate` (`durations` is deleted there). -/
structure UrlStat where
  url : String
  count : Nat
  count_perc : Rat
  time_sum : Rat
  time_perc : Rat
  time_avg : Rat
  time_max : Rat
  time_med : Rat
deriving Repr, DecidableEq

/-- The sort relation of `sorted(..., key=lambda x: x['time_sum'], reverse=True)`:
descending by `time_sum`. -/
def timeSumGe (a b : UrlStat) : Prop := b.time_sum ≤ a.time_sum

instance : DecidableRel timeSumGe :=
  fun a b => inferInstanceAs (Decidable (b.time_sum ≤ a.time_sum))

instance : IsTotal UrlStat timeSumGe :=
  ⟨fun a b => le_total b.time_sum a.time_sum⟩

instance : IsTrans UrlStat timeSumGe :=
  ⟨fun _ _ _ hab hbc => le_trans hbc hab⟩

/-- The body of the finalization loop of `calculate` for one url entry, in
the source's evaluation order: `count_perc` (a division by `rows_count`),
`time_sum`, `time_perc` (a division by `total_duration`, which raises
`ZeroDivisionError` when the grand total is `0`), then `time_avg`,
`time_max`, `time_med`. `len(durations)` is never `0` for an existing
entry, so `time_avg` uses plain rational division. -/
def finalizeEntry (rows_count : Nat) (total_duration : Rat) (a : UrlAcc) :
    Except CalcError UrlStat :=
  match percentage (a.count : Rat) (rows_count : Rat) with
  | Except.error e => Except.error e
  | Except.ok count_perc =>
    let time_sum := a.durations.sum
    match percentage time_sum total_duration with
    | Except.error e => Except.error e
    | Except.ok time_perc =>
      Except.ok (UrlStat.mk a.url a.count count_perc time_sum time_perc
        (time_sum / (a.durations.length : Rat)) (listMax a.durations)
        (median a.durations))

/-- Runs a fallible function over a list, propagating the first raised
error (the finalization loop re-raises the exception out of `calculate`,
so no partial output escapes). -/
def mapExcept (f : α → Except CalcError β) : List α → Except CalcError (List β)
  | [] => Except.ok []
  | a :: as =>
    match f a with
    | Except.error e => Except.error e
    | Except.ok b =>
      match mapExcept f as with
      | Except.error e => Except.error e
      | Except.ok bs => Except.ok (b :: bs)

/-- Embeds `calculate(logfile, error_limit_perc_allowed)` from the point
where the row sequence is available: accumulate, check the error
percentage against the limit (raising on strict excess), finalize every
url entry, and return them sorted by `time_sum` descending (Python's
`sorted` is stable; a stable descending insertion sort by the same key
yields the identical list). -/
def calculate (rows : List LogFileRow) (error_limit_perc_allowed : Rat) :
    Except CalcError (List UrlStat) :=
  match percentage ((accumulate rows).errors_count : Rat)
      ((accumulate rows).rows_count : Rat) with
  | Except.error e => Except.error e
  | Except.ok errors_percentage =>
    if errors_percentage > error_limit_perc_allowed then
      Except.error (CalcError.thresholdExceeded error_limit_perc_allowed errors_percentage)
    else
      match mapExcept (finalizeEntry (accumulate rows).rows_count
          (accumulate rows).total_duration) (accumulate rows).rows_by_url with
      | Except.error e => Except.error e
      | Except.ok finalized => Except.ok (List.insertionSort timeSumGe finalized)

/-- The finalization-and-sort tail of `calculate`, parametrized by the
order in which the Python 2 dict iteration (`iteritems` in the
finalization loop, `.values()` in the sort) yields the accumulated url
entries. Python 2 leaves that order unspecified (hash-table order): it
guarantees only that each entry is yielded exactly once, i.e. that
`entries` is some permutation of the accumulated entries. `calculate`
instantiates this with the model's insertion-order list. -/
def finalizeSort (rows_count : Nat) (total_duration : Rat) (entries : List UrlAcc) :
    Except CalcError (List UrlStat) :=
  match mapExcept (finalizeEntry rows_count total_duration) entries with
  | Except.error e => Except.error e
  | Except.ok finalized => Except.ok (List.insertionSort timeSumGe finalized)

/-- The error percentage `100 * errors_count / rows_count` computed by
`calculate` (as a total rational expression; `calculate` itself raises
when `rows_count == 0`). -/
def errorRate (rows : List LogFileRow) : Rat :=
  100 * ((accumulate rows).errors_count : Rat) / ((accumulate rows).rows_count : Rat)

/-- A calendar date as produced by `datetime.strptime(s, '%Y%m%d')`. -/
structure PyDate where
  year : Nat
  month : Nat
  day : Nat
deriving Repr, DecidableEq

/-- `datetime` comparison `a < b`, lexicographic on (year, month, day). -/
def dateLt (a b : PyDate) : Bool :=
  decide (a.year < b.year ∨ (a.year = b.year ∧
    (a.month < b.month ∨ (a.month = b.month ∧ a.day < b.day))))

/-- Gregorian leap-year rule used by `datetime`. -/
def isLeap (y : Nat) : Bool :=
  (y % 4 = 0 && y % 100 ≠ 0) || y % 400 = 0

/-- Days in a month of the proleptic Gregorian calendar. -/
def daysInMonth (y m : Nat) : Nat :=
  if m = 2 then (if isLeap y then 29 else 28)
  else if m = 4 ∨ m = 6 ∨ m = 9 ∨ m = 11 then 30
  else 31

/-- Digit characters to the number they denote (most significant first). -/
def listToNat (cs : List Char) : Nat :=
  cs.foldl (fun a c => a * 10 + (c.toNat - 48)) 0

/-- Embeds `datetime.strptime(s, '%Y%m%d')` on an 8-digit string: the
first four digits are the year, then two for the month, two for the day;
`ValueError` (here `none`) when the field values do not form a valid
`datetime` date (`datetime` requires `1 <= year <= 9999`). -/
def strptimeYmd (cs : List Char) : Option PyDate :=
  let y := listToNat (cs.take 4)
  let m := listToNat ((cs.drop 4).take 2)
  let d := listToNat (cs.drop 6)
  if 1 ≤ y ∧ y ≤ 9999 ∧ 1 ≤ m ∧ m ≤ 12 ∧ 1 ≤ d ∧ d ≤ daysInMonth y m then
    some (PyDate.mk y m d)
  else none

/-- Whether `l` ends with `s`. -/
def listEndsWith (l s : List Char) : Bool :=
  l.drop (l.length - s.length) == s

/-- The literal part of `LOGFILE_NAME_REGEXP` before the date group:
`nginx-access-ui.log-`. -/
def LOGFILE_LITERAL : List Char :=
  ['n', 'g', 'i', 'n', 'x', '-', 'a', 'c', 'c', 'e', 's', 's', '-', 'u', 'i',
   '.', 'l', 'o', 'g', '-']

/-- Matching `nginx-access-ui\.log-(\d{8})` anchored at the end of the
name: the name must end with the literal followed by exactly 8 digits;
returns the digit group. -/
def matchPlain (name : List Char) : Option (List Char) :=
  let n := name.length
  let date := name.drop (n - 8)
  if date.length = 8 ∧ date.all (fun c => c.isDigit) ∧
      listEndsWith (name.take (n - 8)) LOGFILE_LITERAL = true then
    some date
  else none

/-- Embeds `re.search(LOGFILE_NAME_REGEXP, filename)`: the pattern
`nginx-access-ui\.log-(\d{8})((\.gz)?)$` matches iff the name ends with
the literal plus 8 digits, optionally followed by `.gz`; returns the date
group. The two cases are mutually exclusive (a digit is not `z`). -/
def matchLogfileName (name : List Char) : Option (List Char) :=
  match matchPlain name with
  | some d => some d
  | none =>
    if listEndsWith name ['.', 'g', 'z'] then
      matchPlain (name.take (name.length - 3))
    else none

/-- The regex match and date parse of one candidate filename: `none` both
for a non-matching name and for a name whose 8-digit group is not a valid
date (the latter is the logged soft failure). -/
def parseLogfileDate (filename : String) : Option PyDate :=
  match matchLogfileName filename.data with
  | none => none
  | some ds => strptimeYmd ds

/-- Scans for the last dot of the name that has some non-dot character
before it; returns the suffix from that dot. This is `os.path.splitext`
restricted to names without a path separator, as returned by
`os.listdir`: the extension starts at the last dot unless every character
before it is a dot. `seen` records whether a non-dot character occurred
earlier. -/
def splitextAux : List Char → Bool → Option (List Char)
  | [], _ => none
  | c :: cs, seen =>
    match splitextAux cs (seen || decide (c ≠ '.')) with
    | some e => some e
    | none => if c = '.' ∧ seen = true then some (c :: cs) else none

/-- Embeds `os.path.splitext(filename)[1]` for a bare filename. -/
def splitextExt (s : String) : String :=
  match splitextAux s.data false with
  | none => ""
  | some e => String.mk e

/-- The namedtuple `LogFile(path, date, ext)`. -/
structure LogFile where
  path : String
  date : PyDate
  ext : String
deriving Repr, DecidableEq

/-- One iteration of the directory-scan loop of `get_latest_logfile`:
skip non-matching names and names with an unparsable date; otherwise
update `(max_datetime, latest_logfile)` exactly when the new date is
strictly greater (`logfile_datetime > max_datetime`). -/
def scanStep (st : Option (PyDate × String)) (filename : String) :
    Option (PyDate × String) :=
  match parseLogfileDate filename with
  | none => st
  | some dt =>
    match st with
    | none => some (dt, filename)
    | some (maxdt, latest) =>
      if dateLt maxdt dt then some (dt, filename) else some (maxdt, latest)

/-- Embeds `get_latest_logfile(log_dir, ...)`. The directory scan is
modelled by the list of regular-file names in listing order (the
`os.path.isfile` filter is part of the abstracted file system);
`os.path.join(log_dir, name)` is modelled for a directory path without a
trailing separator. -/
def get_latest_logfile (log_dir : String) (listing : List String) : Option LogFile :=
  match listing.foldl scanStep none with
  | none => none
  | some (dt, latest) =>
    some (LogFile.mk (log_dir ++ "/" ++ latest) dt (splitextExt latest))

/-- The (date, filename) pairs of the listing entries that match the
pattern and carry a parsable date, in listing order. -/
def candidates (listing : List String) : List (PyDate × String) :=
  listing.filterMap (fun f => (parseLogfileDate f).map (fun d => (d, f)))

/-- Modelled from the spec's tie-break sentence, corrected to what the
code does: among the candidates, the first one whose date is maximal
(a later candidate replaces the incumbent only when strictly greater). -/
def firstMaxCandidate : List (PyDate × String) → Option (PyDate × String)
  | [] => none
  | c :: cs =>
    match firstMaxCandidate cs with
    | none => some c
    | some m => if dateLt c.1 m.1 then some m else some c

/-- Combines a scan state with the best of the remaining candidates; the
specification of `List.foldl scanStep`. -/
def mergeSt (st : Option (PyDate × String)) (best : Option (PyDate × String)) :
    Option (PyDate × String) :=
  match st, best with
  | none, b => b
  | some s, none => some s
  | some s, some b => if dateLt s.1 b.1 then some b else some s

/-- Heap model for the frame property of `median`: Python list objects
are cells of a store indexed by position; `median_impl h r` runs the body
of `median` on the list stored in cell `r`. `arr = map(float, arr)`
allocates a fresh cell (appended to the store) and rebinds the local
name; `arr.sort()` then mutates only that fresh cell. The caller's cell
`r` is never written. Returns the result and the final store. -/
def median_impl (h : List (List Rat)) (r : Nat) : Rat × List (List Rat) :=
  let arr := (h.getD r []).map (fun x => x)
  let h1 := h ++ [arr]
  let size := arr.length
  if size = 1 then (arr.getD 0 0, h1)
  else
    let sorted := List.insertionSort (· ≤ ·) arr
    let h2 := h1.set h.length sorted
    if size % 2 = 0 then
      ((sorted.getD (size / 2 - 1) 0 + sorted.getD (size / 2) 0) / 2, h2)
    else (sorted.getD ((size - 1) / 2) 0, h2)

/-- Modelled from the spec: the reference median — sort a copy ascending;
odd length: the middle element; even length: the average of the two
middle elements. -/
def median_ref (d : List Rat) : Rat :=
  let s := List.insertionSort (· ≤ ·) d
  if d.length % 2 = 1 then s.getD (d.length / 2) 0
  else (s.getD (d.length / 2 - 1) 0 + s.getD (d.length / 2) 0) / 2

/-- The parse-failure test on a row, `url is None or duration is None`. -/
def isBadRow (r : LogFileRow) : Bool := r.url.isNone || r.duration.isNone

theorem percentage_ok {p t v : Rat} :
    percentage p t = Except.ok v ↔ t ≠ 0 ∧ v = 100 * p / t := by
  unfold percentage
  split
  · simp_all
  · simp_all [eq_comm]

theorem percentage_error {p t : Rat} {e : CalcError} (h : percentage p t = Except.error e) :
    e = CalcError.zeroDivision ∧ t = 0 := by
  unfold percentage at h
  split at h
  · simp_all
  · simp_all

theorem addRow_count_sum (m : List UrlAcc) (u : String) (d : Rat) :
    ((addRow m u d).map (fun a => a.count)).sum = ((m.map (fun a => a.count)).sum) + 1 := by
  induction m with
  | nil => simp [addRow]
  | cons a rest ih =>
    by_cases hau : a.url = u
    · simp [addRow, hau]
      omega
    · simp [addRow, hau, ih]
      omega

theorem stepRow_fields (s : AccState) (r : LogFileRow) :
    (stepRow s r).rows_count = s.rows_count + 1 ∧
    (stepRow s r).errors_count = s.errors_count + (if isBadRow r then 1 else 0) ∧
    ((stepRow s r).rows_by_url.map (fun a => a.count)).sum =
      (s.rows_by_url.map (fun a => a.count)).sum + (if isBadRow r then 0 else 1) := by
  rcases r with ⟨u, dur⟩
  cases u <;> cases dur <;> simp [stepRow, isBadRow, addRow_count_sum]

theorem foldl_stepRow_invariant (rows : List LogFileRow) : ∀ st : AccState,
    (List.foldl stepRow st rows).rows_count = st.rows_count + rows.length ∧
    (List.foldl stepRow st rows).errors_count = st.errors_count + rows.countP isBadRow ∧
    ((List.foldl stepRow st rows).rows_by_url.map (fun a => a.count)).sum =
      (st.rows_by_url.map (fun a => a.count)).sum + rows.countP (fun r => ! isBadRow r) := by
  induction rows with
  | nil => intro st; simp
  | cons r rest ih =>
    intro st
    obtain ⟨h1, h2, h3⟩ := ih (stepRow st r)
    obtain ⟨g1, g2, g3⟩ := stepRow_fields st r
    simp only [List.foldl_cons, List.countP_cons, h1, h2, h3, g1, g2, g3, List.length_cons]
    by_cases hb : isBadRow r <;> simp [hb] <;> omega

theorem accumulate_rows_count (rows : List LogFileRow) :
    (accumulate rows).rows_count = rows.length := by
  have h := (foldl_stepRow_invariant rows (AccState.mk 0 0 0 [])).1
  simpa [accumulate] using h

theorem accumulate_errors_count (rows : List LogFileRow) :
    (accumulate rows).errors_count = rows.countP isBadRow := by
  have h := (foldl_stepRow_invariant rows (AccState.mk 0 0 0 [])).2.1
  simpa [accumulate] using h

theorem accumulate_count_sum (rows : List LogFileRow) :
    (((accumulate rows).rows_by_url.map (fun a => a.count)).sum) =
      rows.countP (fun r => ! isBadRow r) := by
  have h := (foldl_stepRow_invariant rows (AccState.mk 0 0 0 [])).2.2
  simpa [accumulate] using h

theorem finalizeEntry_ok {rc : Nat} {td : Rat} {a : UrlAcc} {e : UrlStat}
    (h : finalizeEntry rc td a = Except.ok e) :
    e.url = a.url ∧ e.count = a.count ∧ e.time_sum = a.durations.sum ∧
    td ≠ 0 ∧ e.time_perc = 100 * a.durations.sum / td := by
  unfold finalizeEntry at h
  cases h1 : percentage (a.count : Rat) (rc : Rat) with
  | error e1 => rw [h1] at h; exact absurd h (by simp)
  | ok cp =>
    rw [h1] at h
    cases h2 : percentage a.durations.sum td with
    | error e2 => simp only [h2] at h; exact absurd h (by simp)
    | ok tp =>
      simp only [h2] at h
      obtain ⟨htd, htp⟩ := percentage_ok.mp h2
      cases h
      exact ⟨rfl, rfl, rfl, htd, htp⟩

theorem finalizeEntry_error {rc : Nat} {td : Rat} {a : UrlAcc} {e : CalcError}
    (h : finalizeEntry rc td a = Except.error e) : e = CalcError.zeroDivision := by
  unfold finalizeEntry at h
  cases h1 : percentage (a.count : Rat) (rc : Rat) with
  | error e1 =>
    rw [h1] at h
    cases h
    exact (percentage_error h1).1
  | ok cp =>
    rw [h1] at h
    cases h2 : percentage a.durations.sum td with
    | error e2 =>
      simp only [h2] at h
      cases h
      exact (percentage_error h2).1
    | ok tp => simp only [h2] at h; exact absurd h (by simp)

theorem finalizeEntry_td_zero {rc : Nat} {a : UrlAcc} (hrc : (rc : Rat) ≠ 0) :
    finalizeEntry rc 0 a = Except.error CalcError.zeroDivision := by
  unfold finalizeEntry
  have h1 : percentage (a.count : Rat) (rc : Rat) =
      Except.ok (100 * (a.count : Rat) / (rc : Rat)) := by
    unfold percentage
    rw [if_neg hrc]
  rw [h1]
  have h2 : percentage a.durations.sum 0 = Except.error CalcError.zeroDivision := by
    unfold percentage
    rw [if_pos rfl]
  simp only [h2]

theorem mapExcept_forall₂ {f : α → Except CalcError β} {l : List α} {bs : List β}
    (h : mapExcept f l = Except.ok bs) :
    List.Forall₂ (fun a b => f a = Except.ok b) l bs := by
  induction l generalizing bs with
  | nil =>
    unfold mapExcept at h
    cases h
    exact List.Forall₂.nil
  | cons a as ih =>
    unfold mapExcept at h
    cases hfa : f a with
    | error e => rw [hfa] at h; exact absurd h (by simp)
    | ok b =>
      rw [hfa] at h
      cases hrest : mapExcept f as with
      | error e => simp only [hrest] at h; exact absurd h (by simp)
      | ok bs' =>
        simp only [hrest] at h
        cases h
        exact List.Forall₂.cons hfa (ih hrest)

theorem forall₂_mem_right {R : α → β → Prop} {l : List α} {bs : List β}
    (h : List.Forall₂ R l bs) : ∀ b ∈ bs, ∃ a ∈ l, R a b := by
  induction h with
  | nil => intro b hb; cases hb
  | cons hab htail ih =>
    intro b hb
    rcases List.mem_cons.mp hb with rfl | hb'
    · exact ⟨_, List.mem_cons_self _ _, hab⟩
    · obtain ⟨a', ha', hra'⟩ := ih b hb'
      exact ⟨a', List.mem_cons_of_mem _ ha', hra'⟩

theorem mapExcept_mem {f : α → Except CalcError β} {l : List α} {bs : List β}
    (h : mapExcept f l = Except.ok bs) {b : β} (hb : b ∈ bs) :
    ∃ a ∈ l, f a = Except.ok b :=
  forall₂_mem_right (mapExcept_forall₂ h) b hb

theorem mapExcept_error {f : α → Except CalcError β} {l : List α} {e : CalcError}
    (hf : ∀ a e', f a = Except.error e' → e' = CalcError.zeroDivision)
    (h : mapExcept f l = Except.error e) : e = CalcError.zeroDivision := by
  induction l with
  | nil => unfold mapExcept at h; exact absurd h (by simp)
  | cons a as ih =>
    unfold mapExcept at h
    cases hfa : f a with
    | error e' =>
      rw [hfa] at h
      cases h
      exact hf a e hfa
    | ok b =>
      rw [hfa] at h
      cases hrest : mapExcept f as with
      | error e' =>
        simp only [hrest] at h
        cases h
        exact ih hrest
      | ok bs => simp only [hrest] at h; exact absurd h (by simp)

theorem mapExcept_cons_error {f : α → Except CalcError β} {a : α} {l : List α} {e : CalcError}
    (h : f a = Except.error e) : mapExcept f (a :: l) = Except.error e := by
  unfold mapExcept
  rw [h]

theorem forall₂_count_sum {f : UrlAcc → Except CalcError UrlStat}
    {l : List UrlAcc} {bs : List UrlStat}
    (h : List.Forall₂ (fun a b => f a = Except.ok b) l bs)
    (hc : ∀ a b, f a = Except.ok b → b.count = a.count) :
    (bs.map (fun e => e.count)).sum = (l.map (fun a => a.count)).sum := by
  induction h with
  | nil => rfl
  | cons hab _ ih =>
    simp only [List.map_cons, List.sum_cons, ih, hc _ _ hab]

theorem countP_good_add_bad (l : List LogFileRow) :
    l.countP (fun r => ! isBadRow r) + l.countP isBadRow = l.length := by
  induction l with
  | nil => rfl
  | cons r rest ih =>
    simp only [List.countP_cons, List.length_cons]
    by_cases hb : isBadRow r <;> simp [hb] <;> omega

theorem calculate_ok_inv {rows : List LogFileRow} {limit : Rat} {result : List UrlStat}
    (h : calculate rows limit = Except.ok result) :
    ∃ rate bs,
      percentage ((accumulate rows).errors_count : Rat) ((accumulate rows).rows_count : Rat) =
        Except.ok rate ∧
      ¬ rate > limit ∧
      mapExcept (finalizeEntry (accumulate rows).rows_count (accumulate rows).total_duration)
        (accumulate rows).rows_by_url = Except.ok bs ∧
      result = List.insertionSort timeSumGe bs := by
  unfold calculate at h
  cases hp : percentage ((accumulate rows).errors_count : Rat)
      ((accumulate rows).rows_count : Rat) with
  | error e => rw [hp] at h; exact absurd h (by simp)
  | ok rate =>
    rw [hp] at h
    simp only [] at h
    by_cases hgt : rate > limit
    · rw [if_pos hgt] at h; exact absurd h (by simp)
    · rw [if_neg hgt] at h
      cases hm : mapExcept (finalizeEntry (accumulate rows).rows_count
          (accumulate rows).total_duration) (accumulate rows).rows_by_url with
      | error e => simp only [hm] at h; exact absurd h (by simp)
      | ok bs =>
        simp only [hm] at h
        cases h
        exact ⟨rate, bs, rfl, hgt, rfl, rfl⟩

theorem orderedInsert_filter_timeSum (q : Rat) (x : UrlStat) (l : List UrlStat) :
    (List.orderedInsert timeSumGe x l).filter (fun e => decide (e.time_sum = q)) =
      if x.time_sum = q then x :: l.filter (fun e => decide (e.time_sum = q))
      else l.filter (fun e => decide (e.time_sum = q)) := by
  induction l with
  | nil => by_cases hx : x.time_sum = q <;> simp [List.orderedInsert, hx]
  | cons y ys ih =>
    by_cases hxy : timeSumGe x y
    · by_cases hx : x.time_sum = q <;> simp [List.orderedInsert, hxy, hx]
    · have hlt : x.time_sum < y.time_sum := not_le.mp (fun hc => hxy hc)
      by_cases hx : x.time_sum = q <;> by_cases hy : y.time_sum = q
      · exact absurd (hx.trans hy.symm) (ne_of_lt hlt)
      · simp [List.orderedInsert, hxy, hx, hy, ih]
      · simp [List.orderedInsert, hxy, hx, hy, ih]
      · simp [List.orderedInsert, hxy, hx, hy, ih]

theorem insertionSort_filter_timeSum (q : Rat) (l : List UrlStat) :
    (List.insertionSort timeSumGe l).filter (fun e => decide (e.time_sum = q)) =
      l.filter (fun e => decide (e.time_sum = q)) := by
  induction l with
  | nil => rfl
  | cons a l ih =>
    simp only [List.insertionSort, orderedInsert_filter_timeSum, ih, List.filter_cons]
    by_cases ha : a.time_sum = q <;> simp [ha]

/-- C1: aggregation raises `ThresholdExceeded` if and only if the computed
error rate `100 * errors / total` is strictly greater than the configured
limit (so a rate exactly equal to the limit does not raise), and on a
raise the carried payload is exactly `(limit, rate)`. Stated for a
non-empty row sequence, for which the error rate is actually computed
(`calculate` on the empty sequence dies in the division `errors / total`
before the threshold test, see the C2 theorems). -/
theorem calculate_threshold_iff (rows : List LogFileRow) (limit : Rat) (h : rows ≠ []) :
    ((∃ l a, calculate rows limit = Except.error (CalcError.thresholdExceeded l a)) ↔
      errorRate rows > limit) ∧
    (errorRate rows > limit →
      calculate rows limit =
        Except.error (CalcError.thresholdExceeded limit (errorRate rows))) := by
  have hlen : (accumulate rows).rows_count = rows.length := accumulate_rows_count rows
  have hne : ((accumulate rows).rows_count : Rat) ≠ 0 := by
    rw [hlen]
    exact_mod_cast (List.length_pos.mpr h).ne'
  have hp : percentage ((accumulate rows).errors_count : Rat)
      ((accumulate rows).rows_count : Rat) = Except.ok (errorRate rows) := by
    unfold percentage errorRate
    rw [if_neg hne]
  constructor
  · constructor
    · rintro ⟨l, a, heq⟩
      by_contra hng
      unfold calculate at heq
      rw [hp] at heq
      simp only [] at heq
      rw [if_neg hng] at heq
      cases hm : mapExcept (finalizeEntry (accumulate rows).rows_count
          (accumulate rows).total_duration) (accumulate rows).rows_by_url with
      | error e =>
        rw [hm] at heq
        have : e = CalcError.zeroDivision :=
          mapExcept_error (fun a e' he' => finalizeEntry_error he') hm
        subst this
        exact absurd heq (by simp)
      | ok bs => rw [hm] at heq; exact absurd heq (by simp)
    · intro hgt
      refine ⟨limit, errorRate rows, ?_⟩
      unfold calculate
      rw [hp]
      simp only []
      rw [if_pos hgt]
  · intro hgt
    unfold calculate
    rw [hp]
    simp only []
    rw [if_pos hgt]

/-- C1 witness: two rows, one failed, rate `50 > 49` raises with payload
`(49, 50)`; instantiating the iff also certifies that the theorem applies. -/
theorem calculate_threshold_iff_witness :
    ((∃ l a, calculate [LogFileRow.mk none none, LogFileRow.mk (some "/a") (some 1)] 49 =
        Except.error (CalcError.thresholdExceeded l a)) ↔
      errorRate [LogFileRow.mk none none, LogFileRow.mk (some "/a") (some 1)] > 49) ∧
    (errorRate [LogFileRow.mk none none, LogFileRow.mk (some "/a") (some 1)] > 49 →
      calculate [LogFileRow.mk none none, LogFileRow.mk (some "/a") (some 1)] 49 =
        Except.error (CalcError.thresholdExceeded 49
          (errorRate [LogFileRow.mk none none, LogFileRow.mk (some "/a") (some 1)]))) :=
  calculate_threshold_iff _ 49 (by decide)

/-- C2 counterexample: on the empty row sequence and the (non-negative)
limit `25`, aggregation does not complete with an empty result — it
raises `ZeroDivisionError`, because `percentage(0, 0)` divides by zero. -/
theorem calculate_empty_counterexample :
    calculate [] 25 = Except.error CalcError.zeroDivision ∧
    calculate ([] : List LogFileRow) 25 ≠ Except.ok [] := by
  constructor
  · rfl
  · rw [show calculate ([] : List LogFileRow) 25 = Except.error CalcError.zeroDivision from rfl]
    simp

/-- C2 amended: for the empty row sequence (total lines seen `== 0`) and
every error limit, aggregation raises `ZeroDivisionError` from
`percentage(errors_count, rows_count)` — the code has no `total == 0`
guard and never returns the empty result. -/
theorem calculate_empty_raises (limit : Rat) :
    calculate [] limit = Except.error CalcError.zeroDivision := rfl

/-- C3 counterexample: tie order follows the dict iteration order, which
Python 2 does NOT guarantee to be insertion order. For rows `a/1` then
`b/1` the accumulated entries in first-insertion order are `[a, b]`; the
reversed sequence `[b, a]` is a permutation of them, hence an iteration
order CPython 2's hash-ordered `iteritems`/`.values()` is permitted to
produce; under it the two entries — which tie exactly on `time_sum` —
come out `b` before `a`, the reverse of first-insertion order. So
insertion-order tie stability is not a property the program guarantees. -/
theorem calculate_tie_insertion_counterexample :
    (accumulate [LogFileRow.mk (some "/a") (some 1),
        LogFileRow.mk (some "/b") (some 1)]).rows_by_url =
      [UrlAcc.mk "/a" 1 [1], UrlAcc.mk "/b" 1 [1]] ∧
    ([UrlAcc.mk "/b" 1 [1], UrlAcc.mk "/a" 1 [1]] : List UrlAcc).Perm
      (accumulate [LogFileRow.mk (some "/a") (some 1),
        LogFileRow.mk (some "/b") (some 1)]).rows_by_url ∧
    finalizeSort
      (accumulate [LogFileRow.mk (some "/a") (some 1),
        LogFileRow.mk (some "/b") (some 1)]).rows_count
      (accumulate [LogFileRow.mk (some "/a") (some 1),
        LogFileRow.mk (some "/b") (some 1)]).total_duration
      [UrlAcc.mk "/b" 1 [1], UrlAcc.mk "/a" 1 [1]] =
      Except.ok [UrlStat.mk "/b" 1 50 1 50 1 1 1, UrlStat.mk "/a" 1 50 1 50 1 1 1] ∧
    (UrlStat.mk "/b" 1 50 1 50 1 1 1).time_sum = (UrlStat.mk "/a" 1 50 1 50 1 1 1).time_sum ∧
    ([UrlStat.mk "/b" 1 50 1 50 1 1 1, UrlStat.mk "/a" 1 50 1 50 1 1 1].map
        (fun e => e.url)) ≠
      ([UrlAcc.mk "/a" 1 [1], UrlAcc.mk "/b" 1 [1]].map (fun a => a.url)) :=
  ⟨by with_unfolding_all rfl, by with_unfolding_all decide, by with_unfolding_all rfl,
    rfl, by decide⟩

/-- C3 amended: for every row sequence and every iteration order of the
accumulated url entries that a Python 2 dict may yield (any permutation
of them), the finalize-and-sort stage returns a list sorted by
`time_sum` descending (adjacent pairs satisfy `a.time_sum >= b.time_sum`);
entries with any given exact `time_sum` appear in the dict-iteration
order (the stable sort uses no secondary key) — not necessarily the
first-insertion order, which Python 2 dicts do not preserve; the counts
still partition the consumed rows for every iteration order; and when
the iteration order is the model's insertion-order list and the
error-rate check passes, this is exactly the value `calculate` returns. -/
theorem finalizeSort_sorted_tie_order (rows : List LogFileRow) (limit : Rat)
    (iter : List UrlAcc) (result : List UrlStat)
    (hiter : iter.Perm (accumulate rows).rows_by_url)
    (h : finalizeSort (accumulate rows).rows_count (accumulate rows).total_duration iter =
      Except.ok result) :
    List.Chain' timeSumGe result ∧
    (∀ pre, mapExcept (finalizeEntry (accumulate rows).rows_count
        (accumulate rows).total_duration) iter = Except.ok pre →
      ∀ q : Rat, result.filter (fun e => decide (e.time_sum = q)) =
        pre.filter (fun e => decide (e.time_sum = q))) ∧
    ((result.map (fun e => e.count)).sum + rows.countP isBadRow = rows.length) ∧
    (iter = (accumulate rows).rows_by_url → ∀ rate,
      percentage ((accumulate rows).errors_count : Rat)
        ((accumulate rows).rows_count : Rat) = Except.ok rate → ¬ rate > limit →
      calculate rows limit = Except.ok result) := by
  unfold finalizeSort at h
  cases hm : mapExcept (finalizeEntry (accumulate rows).rows_count
      (accumulate rows).total_duration) iter with
  | error e => rw [hm] at h; exact absurd h (by simp)
  | ok bs =>
    rw [hm] at h
    simp only [] at h
    cases h
    refine ⟨?_, ?_, ?_, ?_⟩
    · exact (List.sorted_insertionSort timeSumGe bs).chain'
    · intro pre hpre q
      cases hpre
      exact insertionSort_filter_timeSum q bs
    · have h1 : ((List.insertionSort timeSumGe bs).map (fun e => e.count)).sum =
          (bs.map (fun e => e.count)).sum :=
        ((List.perm_insertionSort timeSumGe bs).map (fun e => e.count)).sum_eq
      have h2 : (bs.map (fun e => e.count)).sum =
          (iter.map (fun a => a.count)).sum :=
        forall₂_count_sum (mapExcept_forall₂ hm) (fun a b hab => (finalizeEntry_ok hab).2.1)
      have h3 : (iter.map (fun a => a.count)).sum =
          ((accumulate rows).rows_by_url.map (fun a => a.count)).sum :=
        (hiter.map (fun a => a.count)).sum_eq
      rw [h1, h2, h3, accumulate_count_sum rows]
      exact countP_good_add_bad rows
    · intro hiter_eq rate hrate hngt
      unfold calculate
      rw [hrate]
      simp only []
      rw [if_neg hngt, ← hiter_eq, hm]

/-- C3 witness: rows `a/1` then `b/1` (equal `time_sum`) under the
reversed iteration order `[b, a]`: the output is descending, its tie
order is the iteration order, and the counts partition the two rows. -/
theorem finalizeSort_sorted_tie_order_witness :
    List.Chain' timeSumGe
      [UrlStat.mk "/b" 1 50 1 50 1 1 1, UrlStat.mk "/a" 1 50 1 50 1 1 1] ∧
    (∀ pre, mapExcept (finalizeEntry
        (accumulate [LogFileRow.mk (some "/a") (some 1),
          LogFileRow.mk (some "/b") (some 1)]).rows_count
        (accumulate [LogFileRow.mk (some "/a") (some 1),
          LogFileRow.mk (some "/b") (some 1)]).total_duration)
        [UrlAcc.mk "/b" 1 [1], UrlAcc.mk "/a" 1 [1]] = Except.ok pre →
      ∀ q : Rat,
        ([UrlStat.mk "/b" 1 50 1 50 1 1 1, UrlStat.mk "/a" 1 50 1 50 1 1 1].filter
          (fun e => decide (e.time_sum = q))) =
        pre.filter (fun e => decide (e.time_sum = q))) ∧
    (([UrlStat.mk "/b" 1 50 1 50 1 1 1, UrlStat.mk "/a" 1 50 1 50 1 1 1].map
        (fun e => e.count)).sum +
      ([LogFileRow.mk (some "/a") (some 1),
        LogFileRow.mk (some "/b") (some 1)].countP isBadRow) =
      ([LogFileRow.mk (some "/a") (some 1),
        LogFileRow.mk (some "/b") (some 1)].length)) ∧
    (([UrlAcc.mk "/b" 1 [1], UrlAcc.mk "/a" 1 [1]] : List UrlAcc) =
        (accumulate [LogFileRow.mk (some "/a") (some 1),
          LogFileRow.mk (some "/b") (some 1)]).rows_by_url → ∀ rate,
      percentage ((accumulate [LogFileRow.mk (some "/a") (some 1),
          LogFileRow.mk (some "/b") (some 1)]).errors_count : Rat)
        ((accumulate [LogFileRow.mk (some "/a") (some 1),
          LogFileRow.mk (some "/b") (some 1)]).rows_count : Rat) = Except.ok rate →
      ¬ rate > 100 →
      calculate [LogFileRow.mk (some "/a") (some 1),
        LogFileRow.mk (some "/b") (some 1)] 100 =
        Except.ok [UrlStat.mk "/b" 1 50 1 50 1 1 1, UrlStat.mk "/a" 1 50 1 50 1 1 1]) :=
  finalizeSort_sorted_tie_order
    [LogFileRow.mk (some "/a") (some 1), LogFileRow.mk (some "/b") (some 1)] 100
    [UrlAcc.mk "/b" 1 [1], UrlAcc.mk "/a" 1 [1]]
    [UrlStat.mk "/b" 1 50 1 50 1 1 1, UrlStat.mk "/a" 1 50 1 50 1 1 1]
    (by with_unfolding_all decide) (by with_unfolding_all rfl)

/-- C4: on success, the counts of the returned entries plus the number of
parse-failure rows account for every row consumed. -/
theorem calculate_count_partition (rows : List LogFileRow) (limit : Rat)
    (result : List UrlStat) (h : calculate rows limit = Except.ok result) :
    (result.map (fun e => e.count)).sum + rows.countP isBadRow = rows.length := by
  obtain ⟨rate, bs, hp, hgt, hm, hres⟩ := calculate_ok_inv h
  subst hres
  have h1 : ((List.insertionSort timeSumGe bs).map (fun e => e.count)).sum =
      (bs.map (fun e => e.count)).sum :=
    ((List.perm_insertionSort timeSumGe bs).map (fun e => e.count)).sum_eq
  have h2 : (bs.map (fun e => e.count)).sum =
      ((accumulate rows).rows_by_url.map (fun a => a.count)).sum :=
    forall₂_count_sum (mapExcept_forall₂ hm) (fun a b hab => (finalizeEntry_ok hab).2.1)
  have h3 := accumulate_count_sum rows
  rw [h1, h2, h3]
  exact countP_good_add_bad rows

/-- C4 witness: the three-row scenario; `2 + 1` successes plus `0`
failures equals `3` rows. -/
theorem calculate_count_partition_witness :
    (([UrlStat.mk "/a" 2 (200/3) 4 (200/3) 2 3 2,
        UrlStat.mk "/b" 1 (100/3) 2 (100/3) 2 2 2].map (fun e => e.count)).sum) +
      ([LogFileRow.mk (some "/a") (some 1), LogFileRow.mk (some "/b") (some 2),
        LogFileRow.mk (some "/a") (some 3)].countP isBadRow) =
      ([LogFileRow.mk (some "/a") (some 1), LogFileRow.mk (some "/b") (some 2),
        LogFileRow.mk (some "/a") (some 3)].length) :=
  calculate_count_partition
    [LogFileRow.mk (some "/a") (some 1), LogFileRow.mk (some "/b") (some 2),
      LogFileRow.mk (some "/a") (some 3)] 100
    [UrlStat.mk "/a" 2 (200/3) 4 (200/3) 2 3 2, UrlStat.mk "/b" 1 (100/3) 2 (100/3) 2 2 2]
    (by with_unfolding_all rfl)

/-- C5: the source's `median` agrees with the spec's reference definition
(sort a copy ascending; odd length: middle element; even length: average
of the two middle elements; the single-element shortcut is the degenerate
odd case) on every non-empty list. -/
theorem median_eq_median_ref (d : List Rat) (h : d ≠ []) : median d = median_ref d := by
  simp only [median, median_ref, List.map_id']
  by_cases h1 : d.length = 1
  · obtain ⟨x, rfl⟩ := List.length_eq_one.mp h1
    simp [List.insertionSort, List.orderedInsert]
  · rw [if_neg h1]
    by_cases h2 : d.length % 2 = 0
    · have h2' : ¬ d.length % 2 = 1 := by omega
      rw [if_pos h2, if_neg h2']
    · have h2' : d.length % 2 = 1 := by omega
      have h3 : (d.length - 1) / 2 = d.length / 2 := by omega
      rw [if_neg h2, if_pos h2', h3]

/-- C5 witness: an even-length list, `median [4,3,2,1] = 5/2` both ways. -/
theorem median_eq_median_ref_witness : median [4, 3, 2, 1] = median_ref [4, 3, 2, 1] :=
  median_eq_median_ref [4, 3, 2, 1] (by decide)

/-- C6 counterexample: a line whose last whitespace-delimited token is the
negative literal `-1.5` is NOT treated as a parse failure — the parser
returns the url and the negative duration. -/
theorem line_negative_counterexample :
    (splitWs "a b c d e f g -1.5").getLast? = some "-1.5" ∧
    pyFloat "-1.5" = some (-(3 / 2) : Rat) ∧ (-(3 / 2) : Rat) < 0 ∧
    line_to_row "a b c d e f g -1.5" = LogFileRow.mk (some "g") (some (-(3 / 2))) ∧
    line_to_row "a b c d e f g -1.5" ≠ LogFileRow.mk none none := by
  refine ⟨by decide, by with_unfolding_all rfl, by with_unfolding_all decide,
    by with_unfolding_all rfl, ?_⟩
  rw [show line_to_row "a b c d e f g -1.5" =
    LogFileRow.mk (some "g") (some (-(3 / 2))) from by with_unfolding_all rfl]
  simp

/-- C6 amended: a line with a 7th token whose last token parses as a
float — negative literals included — is parsed successfully; the value is
forwarded unchanged (the code has no sign check, as spec §4.2 itself
documents). -/
theorem line_negative_passthrough (line : String) (u s : String) (q : Rat)
    (h6 : (splitWs line).get? 6 = some u) (hl : (splitWs line).getLast? = some s)
    (hf : pyFloat s = some q) :
    line_to_row line = LogFileRow.mk (some u) (some q) := by
  simp only [line_to_row, h6, hl, hf]

/-- C6 witness: the amended theorem applied to a concrete line carrying
the negative duration `-0.5`. -/
theorem line_negative_passthrough_witness :
    line_to_row "a b c d e f g -0.5" = LogFileRow.mk (some "g") (some (-(1 / 2))) :=
  line_negative_passthrough "a b c d e f g -0.5" "g" "-0.5" (-(1 / 2))
    (by decide) (by decide) (by with_unfolding_all rfl)

/-- C7 counterexample: one parsed row with duration `0.0` makes
`grand_total_duration == 0`; finalization then raises `ZeroDivisionError`
from `percentage(time_sum, total_duration)` instead of defining
`time_share := 0`. -/
theorem calculate_time_perc_counterexample :
    (accumulate [LogFileRow.mk (some "/a") (some 0)]).total_duration = 0 ∧
    calculate [LogFileRow.mk (some "/a") (some 0)] 100 =
      Except.error CalcError.zeroDivision := by
  exact ⟨by with_unfolding_all rfl, by with_unfolding_all rfl⟩

/-- C7 amended: on success every entry's `time_share` equals
`100 * time_sum / grand_total_duration`; but when the grand total is `0`
and at least one url entry exists (and the error-rate check passes),
`calculate` raises `ZeroDivisionError` rather than defining the share as
`0`. -/
theorem calculate_time_perc (rows : List LogFileRow) (limit : Rat) :
    (∀ result, calculate rows limit = Except.ok result →
      ∀ e ∈ result, e.time_perc = 100 * e.time_sum / (accumulate rows).total_duration) ∧
    (rows ≠ [] → ¬ errorRate rows > limit → (accumulate rows).total_duration = 0 →
      (accumulate rows).rows_by_url ≠ [] →
      calculate rows limit = Except.error CalcError.zeroDivision) := by
  constructor
  · intro result h e he
    obtain ⟨rate, bs, hp, hgt, hm, hres⟩ := calculate_ok_inv h
    subst hres
    have he' : e ∈ bs := (List.perm_insertionSort timeSumGe bs).subset he
    obtain ⟨a, ha, hfa⟩ := mapExcept_mem hm he'
    obtain ⟨hu, hc, hts, htd, htp⟩ := finalizeEntry_ok hfa
    rw [htp, hts]
  · intro hne hngt htd hmap
    have hrc : ((accumulate rows).rows_count : Rat) ≠ 0 := by
      rw [accumulate_rows_count rows]
      exact_mod_cast (List.length_pos.mpr hne).ne'
    have hp : percentage ((accumulate rows).errors_count : Rat)
        ((accumulate rows).rows_count : Rat) = Except.ok (errorRate rows) := by
      unfold percentage errorRate
      rw [if_neg hrc]
    unfold calculate
    rw [hp]
    simp only []
    rw [if_neg hngt]
    cases hmap' : (accumulate rows).rows_by_url with
    | nil => exact absurd hmap' hmap
    | cons a rest =>
      have hfa : finalizeEntry (accumulate rows).rows_count
          (accumulate rows).total_duration a = Except.error CalcError.zeroDivision := by
        rw [htd]
        exact finalizeEntry_td_zero hrc
      rw [mapExcept_cons_error hfa]

/-- C7 witness: a successful run (one row, duration `2`) on which the
formula `time_share = 100 * time_sum / grand_total` is instantiated. -/
theorem calculate_time_perc_witness :
    (UrlStat.mk "/a" 1 100 2 100 2 2 2).time_perc =
      100 * (UrlStat.mk "/a" 1 100 2 100 2 2 2).time_sum /
        (accumulate [LogFileRow.mk (some "/a") (some 2)]).total_duration :=
  (calculate_time_perc [LogFileRow.mk (some "/a") (some 2)] 100).1
    [UrlStat.mk "/a" 1 100 2 100 2 2 2] (by with_unfolding_all rfl)
    (UrlStat.mk "/a" 1 100 2 100 2 2 2) (List.mem_singleton_self _)

/-- C10: `median` never modifies the caller's list: the cell passed in is
element-for-element unchanged after the call (the body maps into a fresh
cell and sorts that copy in place), and the returned value is the pure
`median` of the stored list. -/
theorem median_impl_frame (h : List (List Rat)) (r : Nat) (hr : r < h.length) :
    (median_impl h r).2.getD r [] = h.getD r [] ∧
    (median_impl h r).1 = median (h.getD r []) := by
  have hne : h.length ≠ r := (ne_of_lt hr).symm
  have hgetset : ∀ arr sorted : List Rat,
      (((h ++ [arr]).set h.length sorted).getD r []) = h.getD r [] := by
    intro arr sorted
    rw [List.getD_eq_getElem?_getD, List.getElem?_set_ne hne,
      ← List.getD_eq_getElem?_getD, List.getD_append _ _ _ _ hr]
  have hgetapp : ∀ arr : List Rat, ((h ++ [arr]).getD r []) = h.getD r [] :=
    fun arr => List.getD_append _ _ _ _ hr
  unfold median_impl median
  simp only []
  split_ifs with h1 h2
  · exact ⟨hgetapp _, rfl⟩
  · exact ⟨hgetset _ _, rfl⟩
  · exact ⟨hgetset _ _, rfl⟩

/-- C10 witness: on the store holding the single list `[3, 1, 2]`, the
call leaves the cell unchanged and returns its pure median. -/
theorem median_impl_frame_witness :
    (median_impl [[3, 1, 2]] 0).2.getD 0 [] = [[3, 1, 2]].getD 0 [] ∧
    (median_impl [[3, 1, 2]] 0).1 = median ([[3, 1, 2]].getD 0 []) :=
  median_impl_frame [[3, 1, 2]] 0 (by decide)

theorem dateLt_iff {a b : PyDate} : dateLt a b = true ↔
    (a.year < b.year ∨ (a.year = b.year ∧
      (a.month < b.month ∨ (a.month = b.month ∧ a.day < b.day)))) := by
  unfold dateLt
  exact decide_eq_true_iff

theorem dateLt_trans {a b c : PyDate} (hab : dateLt a b = true) (hbc : dateLt b c = true) :
    dateLt a c = true := by
  rw [dateLt_iff] at *
  omega

theorem dateLt_not_not {a b c : PyDate} (hab : dateLt a b = false) (hbc : dateLt b c = false) :
    dateLt a c = false := by
  rw [Bool.eq_false_iff, Ne, dateLt_iff] at *
  omega

theorem mergeSt_none (x : Option (PyDate × String)) : mergeSt x none = x := by
  cases x <;> rfl

theorem foldl_scanStep_eq (listing : List String) : ∀ st : Option (PyDate × String),
    listing.foldl scanStep st = mergeSt st (firstMaxCandidate (candidates listing)) := by
  induction listing with
  | nil =>
    intro st
    cases st <;> rfl
  | cons f rest ih =>
    intro st
    rw [List.foldl_cons, ih (scanStep st f)]
    cases hpf : parseLogfileDate f with
    | none =>
      have hst : scanStep st f = st := by unfold scanStep; rw [hpf]
      have hcand : candidates (f :: rest) = candidates rest := by
        simp [candidates, List.filterMap_cons, hpf]
      rw [hst, hcand]
    | some d =>
      have hcand : candidates (f :: rest) = (d, f) :: candidates rest := by
        simp [candidates, List.filterMap_cons, hpf]
      rw [hcand]
      have hstep : scanStep st f = mergeSt st (some (d, f)) := by
        unfold scanStep mergeSt
        rw [hpf]
        cases st with
        | none => rfl
        | some s => rfl
      rw [hstep]
      cases hfm : firstMaxCandidate (candidates rest) with
      | none =>
        have : firstMaxCandidate ((d, f) :: candidates rest) = some (d, f) := by
          unfold firstMaxCandidate
          rw [hfm]
        rw [this, mergeSt_none]
      | some m =>
        have hfm' : firstMaxCandidate ((d, f) :: candidates rest) =
            if dateLt d m.1 then some m else some (d, f) := by
          unfold firstMaxCandidate
          rw [hfm]
        rw [hfm']
        cases st with
        | none => rfl
        | some s =>
          by_cases hsd : dateLt s.1 d = true <;> by_cases hdm : dateLt d m.1 = true
          · have hsm : dateLt s.1 m.1 = true := dateLt_trans hsd hdm
            simp [mergeSt, hsd, hdm, hsm]
          · simp [mergeSt, hsd, hdm]
          · simp [mergeSt, hsd, hdm]
          · have hsm : dateLt s.1 m.1 = false :=
              dateLt_not_not (Bool.eq_false_iff.mpr hsd) (Bool.eq_false_iff.mpr hdm)
            simp [mergeSt, hsd, hdm, hsm]

/-- The directory scan as a whole: `get_latest_logfile` returns exactly
the first candidate (in listing order) whose embedded date is maximal. -/
theorem get_latest_eq_firstMax (log_dir : String) (listing : List String) :
    get_latest_logfile log_dir listing =
      (firstMaxCandidate (candidates listing)).map
        (fun c => LogFile.mk (log_dir ++ "/" ++ c.2) c.1 (splitextExt c.2)) := by
  unfold get_latest_logfile
  rw [foldl_scanStep_eq listing none]
  cases firstMaxCandidate (candidates listing) with
  | none => rfl
  | some c => rfl

theorem firstMaxCandidate_mem {l : List (PyDate × String)} {c : PyDate × String}
    (h : firstMaxCandidate l = some c) : c ∈ l := by
  induction l generalizing c with
  | nil => exact absurd h (by simp [firstMaxCandidate])
  | cons a rest ih =>
    unfold firstMaxCandidate at h
    cases hfm : firstMaxCandidate rest with
    | none => rw [hfm] at h; cases h; exact List.mem_cons_self _ _
    | some m =>
      rw [hfm] at h
      simp only [] at h
      by_cases hd : dateLt a.1 m.1 = true
      · rw [if_pos hd] at h
        cases h
        exact List.mem_cons_of_mem _ (ih hfm)
      · rw [if_neg hd] at h
        cases h
        exact List.mem_cons_self _ _

theorem candidates_mem {listing : List String} {c : PyDate × String}
    (h : c ∈ candidates listing) : c.2 ∈ listing ∧ parseLogfileDate c.2 = some c.1 := by
  unfold candidates at h
  obtain ⟨f, hf, hmap⟩ := List.mem_filterMap.mp h
  cases hpf : parseLogfileDate f with
  | none => rw [hpf] at hmap; cases hmap
  | some d =>
    rw [hpf] at hmap
    cases hmap
    exact ⟨hf, hpf⟩

theorem dateLt_irrefl (a : PyDate) : dateLt a a = false := by
  rw [Bool.eq_false_iff, Ne, dateLt_iff]
  omega

theorem dateLt_asymm {a b : PyDate} (h : dateLt a b = true) : dateLt b a = false := by
  rw [dateLt_iff] at h
  rw [Bool.eq_false_iff, Ne, dateLt_iff]
  omega

theorem firstMaxCandidate_nonempty (b : PyDate × String) (bs : List (PyDate × String)) :
    firstMaxCandidate (b :: bs) ≠ none := by
  unfold firstMaxCandidate
  cases h2 : firstMaxCandidate bs with
  | none => simp
  | some m =>
    by_cases hd : dateLt b.1 m.1 = true
    · simp [hd]
    · simp [hd]

theorem firstMaxCandidate_first {l : List (PyDate × String)} {c : PyDate × String}
    (h : firstMaxCandidate l = some c) :
    (∀ d ∈ l, dateLt c.1 d.1 = false) ∧
    ∃ l1 l2, l = l1 ++ c :: l2 ∧ ∀ d ∈ l1, dateLt d.1 c.1 = true := by
  induction l generalizing c with
  | nil => exact absurd h (by simp [firstMaxCandidate])
  | cons a rest ih =>
    unfold firstMaxCandidate at h
    cases hfm : firstMaxCandidate rest with
    | none =>
      rw [hfm] at h
      cases h
      have hrest : rest = [] := by
        cases rest with
        | nil => rfl
        | cons b bs => exact absurd hfm (firstMaxCandidate_nonempty b bs)
      subst hrest
      refine ⟨?_, [], [], rfl, by simp⟩
      intro d hd
      rcases List.mem_singleton.mp hd with rfl
      exact dateLt_irrefl _
    | some m =>
      rw [hfm] at h
      simp only [] at h
      obtain ⟨hmax, l1, l2, hsplit, hless⟩ := ih hfm
      by_cases hd : dateLt a.1 m.1 = true
      · rw [if_pos hd] at h
        cases h
        constructor
        · intro d hdm
          rcases List.mem_cons.mp hdm with rfl | hdr
          · exact dateLt_asymm hd
          · exact hmax d hdr
        · refine ⟨a :: l1, l2, by rw [hsplit, List.cons_append], ?_⟩
          intro d hdm
          rcases List.mem_cons.mp hdm with rfl | hdr
          · exact hd
          · exact hless d hdr
      · rw [if_neg hd] at h
        cases h
        constructor
        · intro d hdm
          rcases List.mem_cons.mp hdm with rfl | hdr
          · exact dateLt_irrefl _
          · exact dateLt_not_not (Bool.eq_false_iff.mpr hd) (hmax d hdr)
        · exact ⟨[], rest, rfl, by simp⟩

/-- C8 counterexample: two candidate filenames carry the identical maximal
embedded date `20200101`; the locator selects the FIRST one encountered in
the scan, not the last (`logfile_datetime > max_datetime` is strict, so an
equal date never replaces the incumbent). -/
theorem get_latest_tie_counterexample :
    parseLogfileDate "nginx-access-ui.log-20200101" = some (PyDate.mk 2020 1 1) ∧
    parseLogfileDate "nginx-access-ui.log-20200101.gz" = some (PyDate.mk 2020 1 1) ∧
    (get_latest_logfile "." ["nginx-access-ui.log-20200101",
        "nginx-access-ui.log-20200101.gz"]).map (fun lf => lf.path) =
      some "./nginx-access-ui.log-20200101" ∧
    ("./nginx-access-ui.log-20200101" : String) ≠ "./nginx-access-ui.log-20200101.gz" :=
  ⟨by decide, by decide, by decide, by decide⟩

/-- C8 amended: the locator returns exactly the FIRST candidate of the
directory scan whose embedded date is maximal: the scan result equals
`firstMaxCandidate`, the chosen candidate has no strictly greater
candidate anywhere in the scan, and every candidate encountered before it
has a strictly smaller date (so on a tie of maximal dates the first one
encountered wins, not the last). -/
theorem get_latest_tie_first (log_dir : String) (listing : List String) :
    get_latest_logfile log_dir listing =
      (firstMaxCandidate (candidates listing)).map
        (fun c => LogFile.mk (log_dir ++ "/" ++ c.2) c.1 (splitextExt c.2)) ∧
    ∀ c, firstMaxCandidate (candidates listing) = some c →
      (∀ d ∈ candidates listing, dateLt c.1 d.1 = false) ∧
      ∃ l1 l2, candidates listing = l1 ++ c :: l2 ∧ ∀ d ∈ l1, dateLt d.1 c.1 = true :=
  ⟨get_latest_eq_firstMax log_dir listing, fun _ hc => firstMaxCandidate_first hc⟩

/-- C8 witness: in the two-file tie the winning candidate is the first
file, no candidate has a greater date, and everything scanned before the
winner (nothing) is smaller. -/
theorem get_latest_tie_first_witness :
    (∀ d ∈ candidates ["nginx-access-ui.log-20200101",
        "nginx-access-ui.log-20200101.gz"],
      dateLt (PyDate.mk 2020 1 1, "nginx-access-ui.log-20200101").1 d.1 = false) ∧
    ∃ l1 l2, candidates ["nginx-access-ui.log-20200101",
        "nginx-access-ui.log-20200101.gz"] =
      l1 ++ (PyDate.mk 2020 1 1, "nginx-access-ui.log-20200101") :: l2 ∧
      ∀ d ∈ l1, dateLt d.1 (PyDate.mk 2020 1 1, "nginx-access-ui.log-20200101").1 = true :=
  (get_latest_tie_first "." ["nginx-access-ui.log-20200101",
      "nginx-access-ui.log-20200101.gz"]).2
    (PyDate.mk 2020 1 1, "nginx-access-ui.log-20200101") (by decide)

theorem splitextAux_no_dot {l : List Char} (hl : ∀ c ∈ l, c ≠ '.') :
    ∀ seen, splitextAux l seen = none := by
  induction l with
  | nil => intro seen; rfl
  | cons c cs ih =>
    intro seen
    unfold splitextAux
    rw [ih (fun x hx => hl x (List.mem_cons_of_mem _ hx))]
    have hc : c ≠ '.' := hl c (List.mem_cons_self _ _)
    simp [hc]

theorem splitextAux_pre_dot {post : List Char} (hpost : ∀ c ∈ post, c ≠ '.') :
    ∀ (pre : List Char) (seen : Bool), (seen = true ∨ ∃ c ∈ pre, c ≠ '.') →
    splitextAux (pre ++ '.' :: post) seen = some ('.' :: post) := by
  intro pre
  induction pre with
  | nil =>
    intro seen hseen
    have hs : seen = true := by
      rcases hseen with hs | ⟨c, hc, _⟩
      · exact hs
      · cases hc
    subst hs
    rw [List.nil_append]
    unfold splitextAux
    rw [splitextAux_no_dot hpost]
    simp
  | cons c cs ih =>
    intro seen hseen
    rw [List.cons_append]
    unfold splitextAux
    rw [ih (seen || decide (c ≠ '.')) ?_]
    rcases hseen with hs | ⟨d, hd, hdne⟩
    · subst hs
      exact Or.inl rfl
    · rcases List.mem_cons.mp hd with rfl | hdr
      · left
        simp [hdne]
      · exact Or.inr ⟨d, hdr, hdne⟩

theorem listEndsWith_eq {l s : List Char} (h : listEndsWith l s = true) :
    l = l.take (l.length - s.length) ++ s := by
  unfold listEndsWith at h
  have hd : l.drop (l.length - s.length) = s := by
    exact beq_iff_eq.mp h
  conv_lhs => rw [← List.take_append_drop (l.length - s.length) l]
  rw [hd]

theorem matchPlain_decomp {name ds : List Char} (h : matchPlain name = some ds) :
    ds.length = 8 ∧ (∀ c ∈ ds, c.isDigit = true) ∧
    ∃ front, name = front ++ LOGFILE_LITERAL ++ ds := by
  unfold matchPlain at h
  simp only [] at h
  split_ifs at h with hcond
  · obtain ⟨h1, h2, h3⟩ := hcond
    cases h
    refine ⟨h1, fun c hc => List.all_eq_true.mp h2 c hc, ?_⟩
    have hsplit := listEndsWith_eq h3
    refine ⟨(name.take (name.length - 8)).take
      ((name.take (name.length - 8)).length - LOGFILE_LITERAL.length), ?_⟩
    conv_lhs => rw [← List.take_append_drop (name.length - 8) name]
    rw [List.append_assoc]
    conv_lhs => rw [hsplit]
    rw [List.append_assoc]

theorem matchLogfileName_cases {name ds : List Char} (h : matchLogfileName name = some ds) :
    matchPlain name = some ds ∨
    (matchPlain name = none ∧ listEndsWith name ['.', 'g', 'z'] = true ∧
      matchPlain (name.take (name.length - 3)) = some ds) := by
  unfold matchLogfileName at h
  cases hp : matchPlain name with
  | some d =>
    rw [hp] at h
    cases h
    exact Or.inl rfl
  | none =>
    rw [hp] at h
    simp only [] at h
    split_ifs at h with hgz
    · exact Or.inr ⟨rfl, hgz, h⟩

theorem digit_ne_dot {c : Char} (h : c.isDigit = true) : c ≠ '.' := by
  intro hc
  subst hc
  exact absurd h (by decide)

theorem digit_ne_z {c : Char} (h : c.isDigit = true) : c ≠ 'z' := by
  intro hc
  subst hc
  exact absurd h (by decide)

theorem LOGFILE_LITERAL_decomp :
    LOGFILE_LITERAL = ['n', 'g', 'i', 'n', 'x', '-', 'a', 'c', 'c', 'e', 's', 's', '-', 'u',
      'i'] ++ '.' :: ['l', 'o', 'g', '-'] := rfl

theorem splitext_plain {name ds : List Char} (hm : matchPlain name = some ds) :
    splitextAux name false = some ('.' :: 'l' :: 'o' :: 'g' :: '-' :: ds) := by
  obtain ⟨hlen, hdig, front, hfront⟩ := matchPlain_decomp hm
  have hshape : name = (front ++ ['n', 'g', 'i', 'n', 'x', '-', 'a', 'c', 'c', 'e', 's', 's',
      '-', 'u', 'i']) ++ '.' :: (['l', 'o', 'g', '-'] ++ ds) := by
    rw [hfront, LOGFILE_LITERAL_decomp]
    simp [List.append_assoc]
  rw [hshape]
  rw [splitextAux_pre_dot ?hpost _ false (Or.inr ⟨'n', by simp, by decide⟩)]
  · rfl
  case hpost =>
    intro c hc
    rcases List.mem_append.mp hc with hB | hds
    · simp only [List.mem_cons, List.not_mem_nil, or_false] at hB
      rcases hB with rfl | rfl | rfl | rfl <;> decide
    · exact digit_ne_dot (hdig c hds)

theorem splitext_gz {name ds : List Char} (hgz : listEndsWith name ['.', 'g', 'z'] = true)
    (hm : matchPlain (name.take (name.length - 3)) = some ds) :
    splitextAux name false = some ['.', 'g', 'z'] := by
  obtain ⟨hlen, hdig, front, hfront⟩ := matchPlain_decomp hm
  have hshape : name = (front ++ LOGFILE_LITERAL ++ ds) ++ '.' :: ['g', 'z'] := by
    have hthis := listEndsWith_eq hgz
    rw [show (['.', 'g', 'z'] : List Char).length = 3 from rfl, hfront] at hthis
    exact hthis
  rw [hshape]
  rw [splitextAux_pre_dot ?hpost2 _ false (Or.inr ⟨'n', ?hmem, by decide⟩)]
  case hpost2 =>
    intro c hc
    simp only [List.mem_cons, List.not_mem_nil, or_false] at hc
    rcases hc with rfl | rfl <;> decide
  case hmem =>
    rw [List.append_assoc]
    exact List.mem_append.mpr (Or.inr (List.mem_append.mpr (Or.inl (by decide))))

theorem matchPlain_gz_absurd {name ds : List Char} (hm : matchPlain name = some ds)
    (hgz : listEndsWith name ['.', 'g', 'z'] = true) : False := by
  obtain ⟨hlen, hdig, front, hfront⟩ := matchPlain_decomp hm
  have hds : ds ≠ [] := by
    intro hc
    rw [hc] at hlen
    cases hlen
  have h1 : name.getLast? = ds.getLast? := by
    rw [hfront]
    exact List.getLast?_append_of_ne_nil _ hds
  have h2 : name.getLast? = some 'z' := by
    rw [listEndsWith_eq hgz]
    rw [List.getLast?_append_of_ne_nil _ (by simp : (['.', 'g', 'z'] : List Char) ≠ [])]
    rfl
  have h3 : ds.getLast? = some (ds.getLast hds) := List.getLast?_eq_getLast_of_ne_nil hds
  have h4 : ds.getLast hds = 'z' := by
    rw [h3] at h1
    rw [h1] at h2
    exact Option.some.inj h2
  exact digit_ne_z (hdig _ (List.getLast_mem hds)) h4

/-- C9 counterexample: for the plain matching filename
`nginx-access-ui.log-20200101` (nothing after the date), the returned
extension field is `.log-20200101` — the `os.path.splitext` suffix from
the last dot of the whole name — not the empty string claimed by the
spec. (The repository's own test `test_get_latest_logfile_plain_allowed`
asserts exactly this value.) -/
theorem get_latest_ext_counterexample :
    (get_latest_logfile "." ["nginx-access-ui.log-20200101"]).map (fun lf => lf.ext) =
      some ".log-20200101" ∧ (".log-20200101" : String) ≠ "" :=
  ⟨by decide, by decide⟩

/-- C9 amended: the extension field of the returned `LogFileRef` is the
`os.path.splitext` suffix of the selected filename, i.e. the literal
suffix from the LAST dot anywhere in the name: `.gz` when the file is
gzip-compressed, and `.log-<date>` (never the empty string) for a plain
matching filename. -/
theorem get_latest_ext (log_dir : String) (listing : List String) (lf : LogFile)
    (h : get_latest_logfile log_dir listing = some lf) :
    ∃ name ds, name ∈ listing ∧ matchLogfileName name.data = some ds ∧
      lf.ext = splitextExt name ∧
      (listEndsWith name.data ['.', 'g', 'z'] = true → lf.ext = ".gz") ∧
      (listEndsWith name.data ['.', 'g', 'z'] = false →
        lf.ext = String.mk ('.' :: 'l' :: 'o' :: 'g' :: '-' :: ds)) := by
  rw [get_latest_eq_firstMax] at h
  cases hfm : firstMaxCandidate (candidates listing) with
  | none => rw [hfm] at h; exact absurd h (by simp)
  | some c =>
    rw [hfm] at h
    simp only [Option.map] at h
    cases h
    obtain ⟨hmem, hpd⟩ := candidates_mem (firstMaxCandidate_mem hfm)
    unfold parseLogfileDate at hpd
    cases hml : matchLogfileName c.2.data with
    | none =>
      rw [hml] at hpd
      simp only [] at hpd
      exact absurd hpd (by simp)
    | some ds =>
      refine ⟨c.2, ds, hmem, hml, rfl, ?_, ?_⟩
      · intro hgz
        rcases matchLogfileName_cases hml with hplain | ⟨hnone, hgz2, hcore⟩
        · exact (matchPlain_gz_absurd hplain hgz).elim
        · show splitextExt c.2 = ".gz"
          unfold splitextExt
          rw [splitext_gz hgz hcore]
      · intro hgzf
        rcases matchLogfileName_cases hml with hplain | ⟨hnone, hgz2, hcore⟩
        · show splitextExt c.2 = String.mk ('.' :: 'l' :: 'o' :: 'g' :: '-' :: ds)
          unfold splitextExt
          rw [splitext_plain hplain]
        · rw [hgz2] at hgzf
          cases hgzf

/-- C9 witness: a compressed file: the theorem yields the `.gz` extension
for the selected candidate. -/
theorem get_latest_ext_witness :
    ∃ name ds, name ∈ ["nginx-access-ui.log-20200101.gz"] ∧
      matchLogfileName name.data = some ds ∧
      (LogFile.mk "./nginx-access-ui.log-20200101.gz" (PyDate.mk 2020 1 1) ".gz").ext =
        splitextExt name ∧
      (listEndsWith name.data ['.', 'g', 'z'] = true →
        (LogFile.mk "./nginx-access-ui.log-20200101.gz" (PyDate.mk 2020 1 1) ".gz").ext =
          ".gz") ∧
      (listEndsWith name.data ['.', 'g', 'z'] = false →
        (LogFile.mk "./nginx-access-ui.log-20200101.gz" (PyDate.mk 2020 1 1) ".gz").ext =
          String.mk ('.' :: 'l' :: 'o' :: 'g' :: '-' :: ds)) :=
  get_latest_ext "." ["nginx-access-ui.log-20200101.gz"]
    (LogFile.mk "./nginx-access-ui.log-20200101.gz" (PyDate.mk 2020 1 1) ".gz") (by decide)

end LogAnalyzer
